import Mathlib

/-!
Verification of the dynamic content-value editor of botlab-cms-ui
(`src/components/section/ValueEditors.tsx` and its sibling revisions of the
same component).  The development shallowly embeds the list editor's data
model — JavaScript objects as ordered association lists from string keys to
JSON-like values — together with the schema-inference heuristic, the schema
mutation operations (add / rename / remove field) and the item-store
operations (append / remove / update item), and proves the documented
properties about them.
-/

namespace BotlabCms

/-- The six field types of the list editor's schema
(`SchemaField['type']` in `ValueEditors.tsx`). -/
inductive FieldType where
  | text
  | longText
  | image
  | video
  | button
  | list
  deriving DecidableEq, Repr

/-- One schema entry: `interface SchemaField { key: string; type: ... }`. -/
structure SchemaField where
  key : String
  type : FieldType
  deriving DecidableEq, Repr

/-- JSON-like values manipulated by the list editor: strings, objects
(ordered key/value records, as JavaScript preserves insertion order) and
arrays.  These are exactly the value shapes the editor produces and
classifies (text, media/button records, nested lists). -/
inductive Value where
  | str : String → Value
  | obj : List (String × Value) → Value
  | arr : List Value → Value
  deriving Repr

/-- An item of a list value: a JavaScript object, embedded as an ordered
association list with (in any state reachable from JSON data) unique keys. -/
abbrev Item := List (String × Value)

/-- Key lookup `item[k]` on a JavaScript object embedded as an association
list: the value at the first matching key. -/
def objGet : Item → String → Option Value
  | [], _ => none
  | (k1, v1) :: t, k => if k1 = k then some v1 else objGet t k

/-- Key-presence test, modelling JavaScript `k in item`. -/
def hasKey (item : Item) (k : String) : Bool :=
  (objGet item k).isSome

/-- Modelling the JavaScript property assignment `item[k] = v` (also the
spread update `{ ...item, [k]: v }`): replace the value at `k` in place when
the key is present, otherwise append the new entry at the end, as
JavaScript objects do. -/
def objSet : Item → String → Value → Item
  | [], k, v => [(k, v)]
  | (k1, v1) :: t, k, v => if k1 = k then (k, v) :: t else (k1, v1) :: objSet t k v

/-- Modelling JavaScript `delete item[k]`: the key is gone afterwards. -/
def objDelete (item : Item) (k : String) : Item :=
  item.filter (fun e => !(e.1 == k))

/-- Modelling `Object.keys(item)` (insertion order). -/
def itemKeys (item : Item) : List String :=
  item.map Prod.fst

/-- Substring test on character lists; `charsContain sub l` holds when `sub`
occurs contiguously inside `l`. -/
def charsContain (sub : List Char) : List Char → Bool
  | [] => sub.isEmpty
  | c :: t => sub.isPrefixOf (c :: t) || charsContain sub t

/-- Modelling JavaScript `s.includes(sub)`. -/
def strIncludes (s sub : String) : Bool :=
  charsContain sub.data s.data

/-- The type-detection heuristic of the schema-inference effect in
`ListEditor` (`ValueEditors.tsx` lines 223–233 and the identical logic in
both `ListEditor` revisions of the sibling source): a string longer than 60
characters is long text, an array is a nested list, a non-null object with a
`url` key is video when the (lowercased) field name contains `"video"` and
image otherwise, an object with a `link` key is a button, and anything else
is short text. -/
def classifyValue (key : String) (val : Value) : FieldType :=
  match val with
  | .str s => if s.length > 60 then .longText else .text
  | .arr _ => .list
  | .obj o =>
      if hasKey o "url" && strIncludes key.toLower "video" then .video
      else if hasKey o "url" then .image
      else if hasKey o "link" then .button
      else .text

/-- The fallback schema installed when the list value is empty:
`[{key:'title',type:'text'},{key:'description',type:'longText'}]`. -/
def defaultSchema : List SchemaField :=
  [⟨"title", .text⟩, ⟨"description", .longText⟩]

/-- Net schema produced by the inference `useEffect` of `ListEditor` as a
function of the current items: with no items it installs `defaultSchema`,
otherwise it maps `classifyValue` over the first item's keys (all three
revisions of the component compute this same function). -/
def inferSchema : List Item → List SchemaField
  | [] => defaultSchema
  | firstItem :: _ => firstItem.map (fun e => ⟨e.1, classifyValue e.1 e.2⟩)

/-- The canonical default value per field type documented for
`handleAddItem`. -/
def defaultValue : FieldType → Value
  | .text => .str ""
  | .longText => .str ""
  | .image => .obj [("url", .str "")]
  | .video => .obj [("url", .str "")]
  | .button => .obj [("text", .str "Button"), ("link", .str "#")]
  | .list => .arr []

/-- The `+ Add Field` button of the schema configurator: append a fresh
field whose placeholder key is `field_` followed by the new length
(`{ key: ` followed by a template literal, `type: 'text' }`). -/
def addField (schema : List SchemaField) : List SchemaField :=
  schema ++ [⟨"field_" ++ toString (schema.length + 1), .text⟩]

namespace Basic

/-- One field's contribution to the fresh item built by `handleAddItem` in
`ValueEditors.tsx` (lines 245–254): four independent `if` statements, each
assigning the default value for its group of field types. -/
def addDefault (item : Item) (f : SchemaField) : Item :=
  let i1 := if f.type = .text ∨ f.type = .longText then objSet item f.key (.str "") else item
  let i2 := if f.type = .image ∨ f.type = .video then objSet i1 f.key (.obj [("url", .str "")]) else i1
  let i3 := if f.type = .button then objSet i2 f.key (.obj [("text", .str "Button"), ("link", .str "#")]) else i2
  if f.type = .list then objSet i3 f.key (.arr []) else i3

/-- `handleAddItem` of `ValueEditors.tsx`: build a fresh item from the
current schema and append it (`onChange([...items, newItem])`). -/
def handleAddItem (schema : List SchemaField) (items : List Item) : List Item :=
  items ++ [schema.foldl addDefault []]

/-- `handleRemoveItem` of `ValueEditors.tsx`:
`newItems = [...items]; newItems.splice(index, 1)`. -/
def handleRemoveItem (items : List Item) (index : Nat) : List Item :=
  items.eraseIdx index

/-- `handleUpdateItem` of `ValueEditors.tsx`:
`newItems[index] = { ...newItems[index], [key]: val }` (in-bounds model). -/
def handleUpdateItem (items : List Item) (index : Nat) (key : String) (val : Value) :
    List Item :=
  items.set index (objSet (items.getD index []) key val)

end Basic

namespace Memo

/-- One field's contribution to the fresh item built by `handleAddItem` in
the memoized `ListEditor` revision (sibling source, lines 441–454): an
`else if` chain over the field's type. -/
def applyDefault (item : Item) (f : SchemaField) : Item :=
  if f.type = .text ∨ f.type = .longText then objSet item f.key (.str "")
  else if f.type = .image ∨ f.type = .video then objSet item f.key (.obj [("url", .str "")])
  else if f.type = .button then objSet item f.key (.obj [("text", .str "Button"), ("link", .str "#")])
  else if f.type = .list then objSet item f.key (.arr [])
  else item

/-- `handleAddItem` of the memoized revision:
`onChange([...itemsRef.current, newItem])`. -/
def handleAddItem (schema : List SchemaField) (items : List Item) : List Item :=
  items ++ [schema.foldl applyDefault []]

/-- `handleRemoveItem` of the memoized revision:
`itemsRef.current.filter((_, i) => i !== index)`. -/
def handleRemoveItem (items : List Item) (index : Nat) : List Item :=
  (items.enum.filter (fun p => p.1 != index)).map Prod.snd

/-- `handleUpdateItem` of the memoized revision: identical spread update at
`(index, key)` (in-bounds model). -/
def handleUpdateItem (items : List Item) (index : Nat) (key : String) (val : Value) :
    List Item :=
  items.set index (objSet (items.getD index []) key val)

end Memo

/-- The per-item part of `handleRenameField`: when the old key is present,
move its value to the new key and delete the old key
(`if (oldKey in newItem) { newItem[newKey] = newItem[oldKey];
delete newItem[oldKey]; }`). -/
def renameKeyInItem (oldKey newKey : String) (item : Item) : Item :=
  match objGet item oldKey with
  | some v => objDelete (objSet item newKey v) oldKey
  | none => item

/-- `handleRenameField` (sibling source, lines 975–994 and the identical
logic of its memoized revision): if the key is unchanged do nothing;
otherwise update the schema entry at `idx` to the new key and move the data
from the old key to the new key in every item. -/
def handleRenameField (schema : List SchemaField) (items : List Item) (idx : Nat)
    (newKey : String) : List SchemaField × List Item :=
  let oldKey := (schema.getD idx ⟨"", .text⟩).key
  if oldKey = newKey then (schema, items)
  else
    (schema.set idx ⟨newKey, (schema.getD idx ⟨"", .text⟩).type⟩,
     items.map (renameKeyInItem oldKey newKey))

/-- `handleRemoveField` (sibling source, lines 954–972 and the identical
logic of its memoized revision): drop the schema entry at `idx` and delete
that entry's key from every item. -/
def handleRemoveField (schema : List SchemaField) (items : List Item) (idx : Nat) :
    List SchemaField × List Item :=
  let fieldToRemove := (schema.getD idx ⟨"", .text⟩).key
  (schema.eraseIdx idx,
   items.map (fun item => objDelete item fieldToRemove))

/-! ### A model of the JSON round-trip

The fallback editor and the round-trip property use the platform builtins
`JSON.stringify(value, null, 2)` and `JSON.parse`, which are not part of
this repository's sources; they are modelled here on the editor's value
domain. -/

/-- Lowercase hexadecimal digit, as used by the `\uXXXX` escapes of
`JSON.stringify`. -/
def hexDigit (n : Nat) : Char :=
  if n < 10 then Char.ofNat (48 + n) else Char.ofNat (87 + n)

/-- Modelled from the spec: the character escaping of `JSON.stringify` for
string values — quote and backslash are escaped, the common control
characters get their two-character escapes, all other control characters
get a `\u00XY` escape, and every other character is emitted verbatim. -/
def escapeChar (c : Char) : List Char :=
  if c = '"' then ['\\', '"']
  else if c = '\\' then ['\\', '\\']
  else if c = '\n' then ['\\', 'n']
  else if c = '\t' then ['\\', 't']
  else if c = '\r' then ['\\', 'r']
  else if c = Char.ofNat 8 then ['\\', 'b']
  else if c = Char.ofNat 12 then ['\\', 'f']
  else if c.toNat < 32 then
    ['\\', 'u', '0', '0', hexDigit (c.toNat / 16), hexDigit (c.toNat % 16)]
  else [c]

/-- Escape a whole string body. -/
def escapeChars : List Char → List Char
  | [] => []
  | c :: t => escapeChar c ++ escapeChars t

mutual

/-- Modelled from the spec: `JSON.stringify` on the editor's value domain.
The cosmetic 2-space indentation of `JSON.stringify(value, null, 2)` is
omitted: it only inserts whitespace, which `JSON.parse` skips. -/
def serValue : Value → List Char
  | .str s => '"' :: escapeChars s.data ++ ['"']
  | .obj ms => '\x7b' :: serMembers ms ++ ['\x7d']
  | .arr vs => '[' :: serElems vs ++ [']']

/-- Comma-separated serialization of array elements. -/
def serElems : List Value → List Char
  | [] => []
  | [v] => serValue v
  | v :: v2 :: vs => serValue v ++ ',' :: serElems (v2 :: vs)

/-- Comma-separated serialization of object members. -/
def serMembers : List (String × Value) → List Char
  | [] => []
  | [(k, v)] => '"' :: escapeChars k.data ++ '"' :: ':' :: serValue v
  | (k, v) :: m2 :: ms =>
      '"' :: escapeChars k.data ++ '"' :: ':' :: serValue v ++ ',' :: serMembers (m2 :: ms)

end

/-- The whitespace characters skipped by `JSON.parse`. -/
def isWsChar (c : Char) : Bool :=
  c = ' ' || c = '\n' || c = '\t' || c = '\r'

/-- Drop leading JSON whitespace. -/
def skipWs : List Char → List Char
  | [] => []
  | c :: t => if isWsChar c then skipWs t else c :: t

/-- The value of a two-character string escape. -/
def unescapeChar (e : Char) : Option Char :=
  if e = 'n' then some '\n'
  else if e = 't' then some '\t'
  else if e = 'r' then some '\r'
  else if e = 'b' then some (Char.ofNat 8)
  else if e = 'f' then some (Char.ofNat 12)
  else if e = '"' ∨ e = '\\' ∨ e = '/' then some e
  else none

/-- The numeric value of a hexadecimal digit character. -/
def hexVal (c : Char) : Option Nat :=
  if '0' ≤ c ∧ c ≤ '9' then some (c.toNat - 48)
  else if 'a' ≤ c ∧ c ≤ 'f' then some (c.toNat - 87)
  else if 'A' ≤ c ∧ c ≤ 'F' then some (c.toNat - 55)
  else none

/-- Modelled from the spec: the string-literal scanner of `JSON.parse`,
reading characters up to the closing quote and resolving escapes; the fuel
argument (an upper bound on the number of characters consumed) only makes
the recursion structural. -/
def parseStringBodyF : Nat → List Char → Option (List Char × List Char)
  | 0, _ => none
  | _ + 1, [] => none
  | n + 1, c :: t =>
      if c = '"' then some ([], t)
      else if c = '\\' then
        match t with
        | 'u' :: h1 :: h2 :: h3 :: h4 :: r =>
            match hexVal h1 with
            | none => none
            | some a =>
              match hexVal h2 with
              | none => none
              | some b =>
                match hexVal h3 with
                | none => none
                | some c2 =>
                  match hexVal h4 with
                  | none => none
                  | some d =>
                      (parseStringBodyF n r).map
                        (fun p => (Char.ofNat (4096 * a + 256 * b + 16 * c2 + d) :: p.1, p.2))
        | e :: r =>
            match unescapeChar e with
            | some u => (parseStringBodyF n r).map (fun p => (u :: p.1, p.2))
            | none => none
        | [] => none
      else (parseStringBodyF n t).map (fun p => (c :: p.1, p.2))

/-- The three grammar productions of the modelled `JSON.parse`: a single
value, the element list of an array, the member list of an object. -/
inductive ParseKind where
  | val
  | elems
  | members

/-- Modelled from the spec: `JSON.parse` on the editor's value domain
(strings, objects, arrays), as one fuel-indexed recursive descent over the
three productions; `.elems` returns its result wrapped in `.arr` and
`.members` in `.obj`. -/
def parseF : Nat → ParseKind → List Char → Option (Value × List Char)
  | 0, _, _ => none
  | n + 1, .val, cs =>
      match skipWs cs with
      | '"' :: rest =>
          match parseStringBodyF (n + 1) rest with
          | some (s, r) => some (.str ⟨s⟩, r)
          | none => none
      | '[' :: rest =>
          match skipWs rest with
          | [] => none
          | c :: r =>
              if c = ']' then some (.arr [], r)
              else
                match parseF n .elems (c :: r) with
                | some (.arr l, r2) => some (.arr l, r2)
                | _ => none
      | '\x7b' :: rest =>
          match skipWs rest with
          | [] => none
          | c :: r =>
              if c = '\x7d' then some (.obj [], r)
              else
                match parseF n .members (c :: r) with
                | some (.obj m, r2) => some (.obj m, r2)
                | _ => none
      | _ => none
  | n + 1, .elems, cs =>
      match parseF n .val cs with
      | some (v, r) =>
          match skipWs r with
          | ',' :: r2 =>
              match parseF n .elems r2 with
              | some (.arr l, r3) => some (.arr (v :: l), r3)
              | _ => none
          | ']' :: r2 => some (.arr [v], r2)
          | _ => none
      | none => none
  | n + 1, .members, cs =>
      match skipWs cs with
      | '"' :: r0 =>
          match parseStringBodyF (n + 1) r0 with
          | some (k, r1) =>
              match skipWs r1 with
              | ':' :: r2 =>
                  match parseF n .val r2 with
                  | some (v, r3) =>
                      match skipWs r3 with
                      | ',' :: r4 =>
                          match parseF n .members r4 with
                          | some (.obj m, r5) => some (.obj ((⟨k⟩, v) :: m), r5)
                          | _ => none
                      | '\x7d' :: r4 => some (.obj [(⟨k⟩, v)], r4)
                      | _ => none
                  | none => none
              | _ => none
          | none => none
      | _ => none

/-- Modelled from the spec: `JSON.parse` as used by the fallback editor —
parse one value and require that only whitespace remains; `none` models the
thrown `SyntaxError`.  The fuel `length + 1` suffices because every parsing
step consumes input. -/
def parseJson (s : String) : Option Value :=
  match parseF (s.length + 1) .val s.data with
  | some (v, r) => if (skipWs r).isEmpty then some v else none
  | none => none

/-- `JSON.stringify` at the `String` level. -/
def serializeJson (v : Value) : String :=
  ⟨serValue v⟩

mutual

/-- Fuel sufficient to parse a serialized value (measured on the value). -/
def costValue : Value → Nat
  | .str s => s.data.length + 1
  | .obj ms => 1 + costMembers ms
  | .arr vs => 1 + costElems vs

/-- Fuel sufficient to parse serialized array elements. -/
def costElems : List Value → Nat
  | [] => 0
  | v :: vs => 1 + costValue v + costElems vs

/-- Fuel sufficient to parse serialized object members. -/
def costMembers : List (String × Value) → Nat
  | [] => 0
  | (k, v) :: ms => 1 + k.data.length + costValue v + costMembers ms

end

/-! ### The raw-JSON fallback editor -/

/-- The state of the raw-JSON fallback editor: its `internalJson` text. -/
structure JsonEditorState where
  internalJson : String

/-- One keystroke in the fallback editor's textarea (`ValueEditors.tsx`
lines 397–404): the internal text always tracks the keystroke, and the
change callback fires exactly when `JSON.parse` succeeds — the parse error
is silently swallowed (`catch(err) {}`).  Returns the new state together
with the value passed to `onChange` (`none` means the callback is not
invoked, so the host form keeps the previous value). -/
def jsonModeTextChange (_state : JsonEditorState) (text : String) :
    JsonEditorState × Option Value :=
  (⟨text⟩, parseJson text)

/-- The fallback editor's rendered output (`ValueEditors.tsx` lines
391–407) consists of the mode-switch button and the textarea only; it
contains no validation-message element, so the inline validation message is
`none` for every input text. -/
def jsonModeValidationMessage (_text : String) : Option String :=
  none

/-! ### Basic lemmas about the embedded JavaScript-object operations -/

theorem objGet_objDelete_self (item : Item) (k : String) :
    objGet (objDelete item k) k = none := by
  induction item with
  | nil => rfl
  | cons e t ih =>
      by_cases h : e.1 = k
      · simpa [objDelete, List.filter_cons, h] using ih
      · simpa [objDelete, List.filter_cons, h, objGet] using ih

theorem objGet_objDelete_ne (item : Item) (k k2 : String) (h : k2 ≠ k) :
    objGet (objDelete item k) k2 = objGet item k2 := by
  induction item with
  | nil => rfl
  | cons e t ih =>
      have ih2 : objGet (List.filter (fun e => !e.1 == k) t) k2 = objGet t k2 := by
        simpa [objDelete] using ih
      by_cases he : e.1 = k
      · simp [objDelete, List.filter_cons, he, objGet, Ne.symm h, ih2]
      · by_cases he2 : e.1 = k2
        · simp [objDelete, List.filter_cons, he, objGet, he2, h]
        · simp [objDelete, List.filter_cons, he, objGet, he2, ih2]

theorem hasKey_objDelete_self (item : Item) (k : String) :
    hasKey (objDelete item k) k = false := by
  simp [hasKey, objGet_objDelete_self]

theorem objGet_objSet_self (item : Item) (k : String) (v : Value) :
    objGet (objSet item k v) k = some v := by
  induction item with
  | nil => simp [objSet, objGet]
  | cons e t ih =>
      by_cases h : e.1 = k
      · simp [objSet, h, objGet]
      · simp [objSet, h, objGet, ih]

theorem objGet_objSet_ne (item : Item) (k k2 : String) (v : Value) (h : k2 ≠ k) :
    objGet (objSet item k v) k2 = objGet item k2 := by
  induction item with
  | nil => simp [objSet, objGet, Ne.symm h]
  | cons e t ih =>
      by_cases he : e.1 = k
      · simp [objSet, he, objGet, Ne.symm h]
      · simp [objSet, he, objGet, ih]

theorem hasKey_objSet_ne (item : Item) (k k2 : String) (v : Value) (h : k2 ≠ k) :
    hasKey (objSet item k v) k2 = hasKey item k2 := by
  simp [hasKey, objGet_objSet_ne item k k2 v h]

theorem hasKey_objSet_self (item : Item) (k : String) (v : Value) :
    hasKey (objSet item k v) k = true := by
  simp [hasKey, objGet_objSet_self]

theorem itemKeys_objSet_of_not_hasKey (item : Item) (k : String) (v : Value)
    (h : hasKey item k = false) :
    itemKeys (objSet item k v) = itemKeys item ++ [k] := by
  induction item with
  | nil => rfl
  | cons e t ih =>
      by_cases he : e.1 = k
      · simp [hasKey, objGet, he] at h
      · have ht : hasKey t k = false := by
          simpa [hasKey, objGet, he] using h
        have ih2 : List.map Prod.fst (objSet t k v) = List.map Prod.fst t ++ [k] := by
          simpa [itemKeys] using ih ht
        simp [objSet, he, itemKeys, ih2]

/-! ### The fresh item built by `handleAddItem` -/

/-- Canonical description of both `handleAddItem` loops: starting from the
empty object, each schema field writes the default value of its type at its
key. -/
def freshItem (schema : List SchemaField) : Item :=
  schema.foldl (fun item f => objSet item f.key (defaultValue f.type)) []

theorem addDefault_eq (item : Item) (f : SchemaField) :
    Basic.addDefault item f = objSet item f.key (defaultValue f.type) := by
  cases h : f.type <;> simp [Basic.addDefault, h, defaultValue]

theorem applyDefault_eq (item : Item) (f : SchemaField) :
    Memo.applyDefault item f = objSet item f.key (defaultValue f.type) := by
  cases h : f.type <;> simp [Memo.applyDefault, h, defaultValue]

theorem foldl_addDefault_eq (schema : List SchemaField) (acc : Item) :
    schema.foldl Basic.addDefault acc =
      schema.foldl (fun item f => objSet item f.key (defaultValue f.type)) acc := by
  induction schema generalizing acc with
  | nil => rfl
  | cons f t ih => simp [List.foldl_cons, addDefault_eq, ih]

theorem foldl_applyDefault_eq (schema : List SchemaField) (acc : Item) :
    schema.foldl Memo.applyDefault acc =
      schema.foldl (fun item f => objSet item f.key (defaultValue f.type)) acc := by
  induction schema generalizing acc with
  | nil => rfl
  | cons f t ih => simp [List.foldl_cons, applyDefault_eq, ih]

theorem objGet_freshFold_of_not_mem (schema : List SchemaField) (acc : Item) (k : String)
    (h : ∀ f ∈ schema, f.key ≠ k) :
    objGet (schema.foldl (fun item f => objSet item f.key (defaultValue f.type)) acc) k =
      objGet acc k := by
  induction schema generalizing acc with
  | nil => rfl
  | cons f t ih =>
      have hk : k ≠ f.key := Ne.symm (h f (List.mem_cons_self f t))
      rw [List.foldl_cons, ih _ (fun g hg => h g (List.mem_cons_of_mem f hg))]
      exact objGet_objSet_ne acc f.key k (defaultValue f.type) hk

theorem itemKeys_freshFold (schema : List SchemaField) (acc : Item)
    (hnd : (schema.map SchemaField.key).Nodup)
    (hacc : ∀ f ∈ schema, hasKey acc f.key = false) :
    itemKeys (schema.foldl (fun item f => objSet item f.key (defaultValue f.type)) acc) =
      itemKeys acc ++ schema.map SchemaField.key := by
  induction schema generalizing acc with
  | nil => simp
  | cons f t ih =>
      have hfacc : hasKey acc f.key = false := hacc f (List.mem_cons_self f t)
      have hpair : (∀ x ∈ t, ¬x.key = f.key) ∧ (t.map SchemaField.key).Nodup := by
        simpa using hnd
      have hacc' : ∀ g ∈ t, hasKey (objSet acc f.key (defaultValue f.type)) g.key = false := by
        intro g hg
        rw [hasKey_objSet_ne _ _ _ _ (hpair.1 g hg)]
        exact hacc g (List.mem_cons_of_mem f hg)
      rw [List.foldl_cons, ih _ hpair.2 hacc',
        itemKeys_objSet_of_not_hasKey _ _ _ hfacc]
      simp

theorem objGet_freshFold_self (schema : List SchemaField) (acc : Item)
    (hnd : (schema.map SchemaField.key).Nodup) :
    ∀ f ∈ schema,
      objGet (schema.foldl (fun item g => objSet item g.key (defaultValue g.type)) acc) f.key =
        some (defaultValue f.type) := by
  induction schema generalizing acc with
  | nil => intro f hf; cases hf
  | cons f0 t ih =>
      intro f hf
      have hpair : (∀ x ∈ t, ¬x.key = f0.key) ∧ (t.map SchemaField.key).Nodup := by
        simpa using hnd
      rw [List.foldl_cons]
      rcases List.mem_cons.mp hf with rfl | hf'
      · rw [objGet_freshFold_of_not_mem t _ f.key hpair.1]
        exact objGet_objSet_self acc f.key (defaultValue f.type)
      · exact ih _ hpair.2 f hf'

/-! ### Splice-based and filter-based item removal agree -/

theorem enumFrom_filter_ne_small (xs : List Item) (m k : Nat) (h : k < m) :
    ((List.enumFrom m xs).filter (fun p => p.1 != k)).map Prod.snd = xs := by
  induction xs generalizing m with
  | nil => rfl
  | cons x t ih =>
      have hm : m ≠ k := Nat.ne_of_gt h
      have step : (List.enumFrom m (x :: t)).filter (fun p => p.1 != k) =
          (m, x) :: (List.enumFrom (m + 1) t).filter (fun p => p.1 != k) := by
        simp [List.enumFrom, List.filter_cons, hm]
      rw [step, List.map_cons, ih (m + 1) (Nat.lt_succ_of_lt h)]

theorem enumFrom_filter_eraseIdx (xs : List Item) (n j : Nat) :
    ((List.enumFrom n xs).filter (fun p => p.1 != (n + j))).map Prod.snd =
      xs.eraseIdx j := by
  induction xs generalizing n j with
  | nil => rfl
  | cons x t ih =>
      cases j with
      | zero =>
          have step : (List.enumFrom n (x :: t)).filter (fun p => p.1 != (n + 0)) =
              (List.enumFrom (n + 1) t).filter (fun p => p.1 != (n + 0)) := by
            simp [List.enumFrom, List.filter_cons]
          rw [step, enumFrom_filter_ne_small t (n + 1) (n + 0) (by omega)]
          rfl
      | succ i =>
          have hn : n ≠ n + (i + 1) := by omega
          have step : (List.enumFrom n (x :: t)).filter (fun p => p.1 != (n + (i + 1))) =
              (n, x) :: (List.enumFrom (n + 1) t).filter (fun p => p.1 != (n + (i + 1))) := by
            simp [List.enumFrom, List.filter_cons, hn]
          rw [step, List.map_cons]
          have hrec := ih (n + 1) i
          rw [show (n + 1) + i = n + (i + 1) by omega] at hrec
          rw [hrec]
          rfl

theorem eraseIdx_eq_enum_filter (items : List Item) (index : Nat) :
    items.eraseIdx index =
      (items.enum.filter (fun p => p.1 != index)).map Prod.snd := by
  have := enumFrom_filter_eraseIdx items 0 index
  simpa [List.enum] using this.symm

/-! ### Lemmas about renaming and updating -/

theorem hasKey_renameKeyInItem_old (oldKey newKey : String) (item : Item) :
    hasKey (renameKeyInItem oldKey newKey item) oldKey = false := by
  unfold renameKeyInItem
  cases hv : objGet item oldKey with
  | none => simp [hasKey, hv]
  | some v => exact hasKey_objDelete_self _ _

theorem objGet_renameKeyInItem_new (oldKey newKey : String) (item : Item)
    (hne : newKey ≠ oldKey) (hhas : hasKey item oldKey = true) :
    objGet (renameKeyInItem oldKey newKey item) newKey = objGet item oldKey := by
  unfold renameKeyInItem
  cases hv : objGet item oldKey with
  | none => simp [hasKey, hv] at hhas
  | some v => rw [objGet_objDelete_ne _ _ _ hne, objGet_objSet_self]

theorem renameKeyInItem_of_not_hasKey (oldKey newKey : String) (item : Item)
    (h : hasKey item oldKey = false) :
    renameKeyInItem oldKey newKey item = item := by
  unfold renameKeyInItem
  cases hv : objGet item oldKey with
  | none => rfl
  | some v => simp [hasKey, hv] at h

theorem getD_set_self (l : List Item) (i : Nat) (a : Item) (h : i < l.length) :
    (l.set i a).getD i [] = a := by
  induction l generalizing i with
  | nil => cases h
  | cons x t ih =>
      cases i with
      | zero => rfl
      | succ j => exact ih j (Nat.lt_of_succ_lt_succ h)

theorem getD_set_ne (l : List Item) (i j : Nat) (a : Item) (h : j ≠ i) :
    (l.set i a).getD j [] = l.getD j [] := by
  induction l generalizing i j with
  | nil => rfl
  | cons x t ih =>
      cases i with
      | zero =>
          cases j with
          | zero => exact absurd rfl h
          | succ j2 => rfl
      | succ i2 =>
          cases j with
          | zero => rfl
          | succ j2 => exact ih i2 j2 (fun hh => h (by rw [hh]))

theorem hasKey_handleUpdateItem (items : List Item) (i : Nat) (key k : String)
    (v : Value) (hk : k ≠ key)
    (hall : ∀ item ∈ items, hasKey item k = false) :
    ∀ item ∈ Memo.handleUpdateItem items i key v, hasKey item k = false := by
  intro item hmem
  unfold Memo.handleUpdateItem at hmem
  rcases List.mem_or_eq_of_mem_set hmem with h1 | rfl
  · exact hall item h1
  · rw [hasKey_objSet_ne _ _ _ _ hk]
    by_cases hi : i < items.length
    · have hmem2 : items.getD i [] ∈ items := by
        rw [List.getD_eq_getElem items [] hi]
        exact List.getElem_mem hi
      exact hall _ hmem2
    · rw [List.getD_eq_default items [] (Nat.le_of_not_lt hi)]
      rfl

/-! ### The claims -/

/-- C1: renaming a schema field from its old key to a (different) new key
updates the schema entry at that position, moves every item's value from
the old key to the new key and deletes the old key (items without the old
key are untouched), so that afterwards no item retains a residual old key —
including after any subsequent edit of an item's new-key field. -/
theorem renameField_no_residual_key (schema : List SchemaField) (items : List Item)
    (idx : Nat) (newKey : String) (h : idx < schema.length)
    (hne : schema[idx].key ≠ newKey) :
    (handleRenameField schema items idx newKey).1 =
      schema.set idx ⟨newKey, schema[idx].type⟩ ∧
    (handleRenameField schema items idx newKey).2 =
      items.map (renameKeyInItem schema[idx].key newKey) ∧
    (∀ item ∈ items, hasKey item schema[idx].key = true →
      objGet (renameKeyInItem schema[idx].key newKey item) newKey =
        objGet item schema[idx].key) ∧
    (∀ item ∈ items, hasKey item schema[idx].key = false →
      renameKeyInItem schema[idx].key newKey item = item) ∧
    (∀ item ∈ (handleRenameField schema items idx newKey).2,
      hasKey item schema[idx].key = false) ∧
    (∀ i v, ∀ item ∈ Memo.handleUpdateItem
        (handleRenameField schema items idx newKey).2 i newKey v,
      hasKey item schema[idx].key = false) := by
  have hd : schema.getD idx ⟨"", .text⟩ = schema[idx] :=
    List.getD_eq_getElem schema _ h
  have hres : handleRenameField schema items idx newKey =
      (schema.set idx ⟨newKey, schema[idx].type⟩,
       items.map (renameKeyInItem schema[idx].key newKey)) := by
    unfold handleRenameField
    rw [hd]
    rw [if_neg hne]
  have hclear : ∀ item ∈ (handleRenameField schema items idx newKey).2,
      hasKey item schema[idx].key = false := by
    intro item hitem
    rw [hres] at hitem
    simp only [List.mem_map] at hitem
    obtain ⟨it, _, rfl⟩ := hitem
    exact hasKey_renameKeyInItem_old _ _ it
  refine ⟨by rw [hres], by rw [hres], ?_, ?_, hclear, ?_⟩
  · intro item _ hhas
    exact objGet_renameKeyInItem_new _ _ item (Ne.symm hne) hhas
  · intro item _ hno
    exact renameKeyInItem_of_not_hasKey _ _ item hno
  · intro i v
    exact hasKey_handleUpdateItem _ i newKey schema[idx].key v hne hclear

/-- C2: removing a schema field deletes its schema entry and physically
deletes that field's key from every item, so that afterwards zero items
contain the key. -/
theorem removeField_no_orphan_keys (schema : List SchemaField) (items : List Item)
    (idx : Nat) (h : idx < schema.length) :
    (handleRemoveField schema items idx).1 = schema.eraseIdx idx ∧
    (handleRemoveField schema items idx).2 =
      items.map (fun item => objDelete item schema[idx].key) ∧
    ∀ item ∈ (handleRemoveField schema items idx).2,
      hasKey item schema[idx].key = false := by
  have hd : schema.getD idx ⟨"", .text⟩ = schema[idx] :=
    List.getD_eq_getElem schema _ h
  refine ⟨rfl, ?_, ?_⟩
  · unfold handleRemoveField
    rw [hd]
  · intro item hitem
    unfold handleRemoveField at hitem
    rw [hd] at hitem
    simp only [List.mem_map] at hitem
    obtain ⟨it, _, rfl⟩ := hitem
    exact hasKey_objDelete_self it _

/-- C3: for a non-empty list value the inferred schema's keys are exactly
the first item's keys, and each key's type is classified by the documented
heuristic in order: a string longer than 60 characters is long text, an
array is a nested list, an object with a `url` key whose lowercased field
name contains "video" is video, an object with `url` otherwise is image, an
object with `link` is button, and everything else is short text. -/
theorem inferSchema_heuristic (items : List Item) (hne : items ≠ []) :
    (inferSchema items).map SchemaField.key = itemKeys (items.head hne) ∧
    inferSchema items = (items.head hne).map (fun e => ⟨e.1, classifyValue e.1 e.2⟩) ∧
    (∀ k s, classifyValue k (.str s) =
      if s.length > 60 then .longText else .text) ∧
    (∀ k l, classifyValue k (.arr l) = .list) ∧
    (∀ k o, classifyValue k (.obj o) =
      if hasKey o "url" && strIncludes k.toLower "video" then .video
      else if hasKey o "url" then .image
      else if hasKey o "link" then .button
      else .text) := by
  match items, hne with
  | first :: rest, _ =>
      refine ⟨?_, rfl, fun k s => rfl, fun k l => rfl, fun k o => rfl⟩
      simp [inferSchema, itemKeys]

/-- C4: appending an item appends one fresh item at the end whose keys are
exactly the schema's keys, each bound to the documented default value of
its field type (empty string for text and long text, a `url`-record with
empty url for media, the `Button`/`#` record for button, the empty sequence
for list); pre-existing items are unchanged, and both `handleAddItem`
revisions build this same item. -/
theorem addItem_defaults (schema : List SchemaField) (items : List Item)
    (hnd : (schema.map SchemaField.key).Nodup) :
    Basic.handleAddItem schema items = items ++ [freshItem schema] ∧
    Memo.handleAddItem schema items = items ++ [freshItem schema] ∧
    itemKeys (freshItem schema) = schema.map SchemaField.key ∧
    (∀ f ∈ schema, objGet (freshItem schema) f.key = some (defaultValue f.type)) ∧
    defaultValue .text = .str "" ∧
    defaultValue .longText = .str "" ∧
    defaultValue .image = .obj [("url", .str "")] ∧
    defaultValue .video = .obj [("url", .str "")] ∧
    defaultValue .button = .obj [("text", .str "Button"), ("link", .str "#")] ∧
    defaultValue .list = .arr [] := by
  refine ⟨?_, ?_, ?_, ?_, rfl, rfl, rfl, rfl, rfl, rfl⟩
  · unfold Basic.handleAddItem freshItem
    rw [foldl_addDefault_eq]
  · unfold Memo.handleAddItem freshItem
    rw [foldl_applyDefault_eq]
  · have hkeys := itemKeys_freshFold schema [] hnd (fun f _ => rfl)
    simpa [freshItem, itemKeys] using hkeys
  · intro f hf
    exact objGet_freshFold_self schema [] hnd f hf

/-- C5 counterexample: a non-empty list whose first item has no keys does
not fall back to the default two-field schema — the inference effect
installs the empty schema instead. -/
theorem inferSchema_malformed_counterexample :
    inferSchema [([] : Item)] = [] ∧ inferSchema [([] : Item)] ≠ defaultSchema := by
  exact ⟨rfl, by decide⟩

/-- C5 amended: an empty list value falls back to the default two-field
schema (`title`: text, `description`: long text); a non-empty list whose
first item has no keys yields the empty schema instead of the default. -/
theorem inferSchema_fallback (rest : List Item) :
    inferSchema [] = [⟨"title", .text⟩, ⟨"description", .longText⟩] ∧
    inferSchema (([] : Item) :: rest) = [] :=
  ⟨rfl, rfl⟩

/-- C6 counterexample: the schema whose single field key is `field_2` has
pairwise-distinct keys, yet the add-field operation generates the
placeholder `field_2` again (the new length is 2), producing duplicate
keys. -/
theorem addField_duplicate_counterexample :
    ((([⟨"field_2", .text⟩] : List SchemaField).map SchemaField.key).Nodup) ∧
    ¬(((addField [⟨"field_2", .text⟩]).map SchemaField.key).Nodup) := by
  constructor
  · decide
  · decide

/-- C6 amended: add-field appends one field whose auto-generated
placeholder key is `field_` followed by the new schema length; for a
schema with pairwise-distinct keys this preserves key uniqueness exactly
when no existing key already equals that placeholder (so uniqueness is not
guaranteed in general, e.g. after removals have shifted the length). -/
theorem addField_placeholder (schema : List SchemaField)
    (hnd : (schema.map SchemaField.key).Nodup)
    (hfree : ("field_" ++ toString (schema.length + 1)) ∉ schema.map SchemaField.key) :
    addField schema = schema ++ [⟨"field_" ++ toString (schema.length + 1), .text⟩] ∧
    ((addField schema).map SchemaField.key).Nodup := by
  refine ⟨rfl, ?_⟩
  unfold addField
  rw [List.map_append, List.nodup_append]
  exact ⟨hnd, List.nodup_singleton _, by
    intro a ha hb
    simp only [List.map_cons, List.map_nil, List.mem_singleton] at hb
    rw [hb] at ha
    exact hfree ha⟩

/-- C7: updating an item's field replaces only the value at
`(index, key)`: the list keeps its length, the updated item holds the new
value at `key` and keeps every other field, every other item is unchanged,
and both editor revisions perform the identical update. -/
theorem updateItem_frame (items : List Item) (index : Nat) (key : String)
    (val : Value) (h : index < items.length) :
    Memo.handleUpdateItem items index key val =
      Basic.handleUpdateItem items index key val ∧
    (Basic.handleUpdateItem items index key val).length = items.length ∧
    objGet ((Basic.handleUpdateItem items index key val).getD index []) key = some val ∧
    (∀ k2, k2 ≠ key →
      objGet ((Basic.handleUpdateItem items index key val).getD index []) k2 =
        objGet (items.getD index []) k2) ∧
    (∀ j, j ≠ index →
      (Basic.handleUpdateItem items index key val).getD j [] = items.getD j []) := by
  refine ⟨rfl, ?_, ?_, ?_, ?_⟩
  · unfold Basic.handleUpdateItem
    exact List.length_set items index _
  · unfold Basic.handleUpdateItem
    rw [getD_set_self items index _ h]
    exact objGet_objSet_self _ key val
  · intro k2 hk2
    unfold Basic.handleUpdateItem
    rw [getD_set_self items index _ h]
    exact objGet_objSet_ne _ key k2 val hk2
  · intro j hj
    unfold Basic.handleUpdateItem
    exact getD_set_ne items index j _ hj

/-- C10: the basic list editor and the memoized list editor implement the
same item-store operations: the same appended item for a given schema, the
same shortened list from splice-based and filter-based removal, and the
same updated list for a field update at `(index, key)`. -/
theorem editors_agree (schema : List SchemaField) (items : List Item)
    (index : Nat) (key : String) (val : Value) :
    Basic.handleAddItem schema items = Memo.handleAddItem schema items ∧
    Basic.handleRemoveItem items index = Memo.handleRemoveItem items index ∧
    Basic.handleUpdateItem items index key val =
      Memo.handleUpdateItem items index key val := by
  refine ⟨?_, ?_, rfl⟩
  · unfold Basic.handleAddItem Memo.handleAddItem
    rw [foldl_addDefault_eq, foldl_applyDefault_eq]
  · unfold Basic.handleRemoveItem Memo.handleRemoveItem
    exact eraseIdx_eq_enum_filter items index

/-! ### Round-trip of the modelled JSON codec -/

theorem stringMk_data (s : String) : String.mk s.data = s := by
  cases s
  rfl

theorem skipWs_cons_of_not_ws (c : Char) (t : List Char) (h : isWsChar c = false) :
    skipWs (c :: t) = c :: t := by
  rw [skipWs, h]
  rfl

theorem hexVal_hexDigit (d : Nat) (h : d < 16) : hexVal (hexDigit d) = some d := by
  interval_cases d <;> decide

theorem escapeChar_length_pos (c : Char) : 1 ≤ (escapeChar c).length := by
  unfold escapeChar
  split_ifs <;> simp

theorem escapeChars_length_ge (s : List Char) : s.length ≤ (escapeChars s).length := by
  induction s with
  | nil => simp [escapeChars]
  | cons c t ih =>
      have hpos := escapeChar_length_pos c
      simp only [escapeChars, List.length_append, List.length_cons]
      omega

theorem parseStringBodyF_unicode (n : Nat) (d1 d2 : Char) (X : List Char) :
    parseStringBodyF (n + 1) ('\\' :: 'u' :: '0' :: '0' :: d1 :: d2 :: X) =
      match hexVal d1 with
      | none => none
      | some c2 =>
        match hexVal d2 with
        | none => none
        | some d =>
            (parseStringBodyF n X).map
              (fun p => (Char.ofNat (4096 * 0 + 256 * 0 + 16 * c2 + d) :: p.1, p.2)) := rfl

theorem parseStringBodyF_escapeChar (n : Nat) (c : Char) (X : List Char) :
    parseStringBodyF (n + 1) (escapeChar c ++ X) =
      (parseStringBodyF n X).map (fun p => (c :: p.1, p.2)) := by
  by_cases h1 : c = '"'
  · subst h1; rfl
  by_cases h2 : c = '\\'
  · subst h2; rfl
  by_cases h3 : c = '\n'
  · subst h3; rfl
  by_cases h4 : c = '\t'
  · subst h4; rfl
  by_cases h5 : c = '\r'
  · subst h5; rfl
  by_cases h6 : c = Char.ofNat 8
  · subst h6; rfl
  by_cases h7 : c = Char.ofNat 12
  · subst h7; rfl
  by_cases h8 : c.toNat < 32
  · have he : escapeChar c =
        ['\\', 'u', '0', '0', hexDigit (c.toNat / 16), hexDigit (c.toNat % 16)] := by
      unfold escapeChar
      rw [if_neg h1, if_neg h2, if_neg h3, if_neg h4, if_neg h5, if_neg h6, if_neg h7,
        if_pos h8]
    rw [he]
    rw [show ('\\' :: 'u' :: '0' :: '0' :: hexDigit (c.toNat / 16) ::
        hexDigit (c.toNat % 16) :: []) ++ X =
      '\\' :: 'u' :: '0' :: '0' :: hexDigit (c.toNat / 16) ::
        hexDigit (c.toNat % 16) :: X from rfl]
    rw [parseStringBodyF_unicode, hexVal_hexDigit _ (by omega),
      hexVal_hexDigit _ (Nat.mod_lt _ (by norm_num))]
    have harith : 4096 * 0 + 256 * 0 + 16 * (c.toNat / 16) + c.toNat % 16 = c.toNat := by
      omega
    show (parseStringBodyF n X).map
        (fun p =>
          (Char.ofNat (4096 * 0 + 256 * 0 + 16 * (c.toNat / 16) + c.toNat % 16) :: p.1,
           p.2)) =
      (parseStringBodyF n X).map (fun p => (c :: p.1, p.2))
    rw [harith, Char.ofNat_toNat]
  · have he : escapeChar c = [c] := by
      unfold escapeChar
      rw [if_neg h1, if_neg h2, if_neg h3, if_neg h4, if_neg h5, if_neg h6, if_neg h7,
        if_neg h8]
    rw [he]
    rw [show ([c] : List Char) ++ X = c :: X from rfl]
    rw [parseStringBodyF.eq_def]
    simp [h1, h2]

theorem parseStringBodyF_escapeChars (s : List Char) :
    ∀ n X, s.length < n →
      parseStringBodyF n (escapeChars s ++ '"' :: X) = some (s, X) := by
  induction s with
  | nil =>
      intro n X hn
      match n, hn with
      | n + 1, _ => rfl
  | cons c t ih =>
      intro n X hn
      simp only [List.length_cons] at hn
      match n, hn with
      | n + 1, hn =>
          have hshape : escapeChars (c :: t) ++ '"' :: X =
              escapeChar c ++ (escapeChars t ++ '"' :: X) := by
            simp [escapeChars, List.append_assoc]
          rw [hshape, parseStringBodyF_escapeChar, ih n X (by omega)]
          rfl

theorem serValue_head (v : Value) :
    ∃ c t, serValue v = c :: t ∧ (c = '"' ∨ c = '[' ∨ c = '\x7b') := by
  cases v with
  | str s => exact ⟨'"', _, rfl, Or.inl rfl⟩
  | obj ms => exact ⟨'\x7b', _, rfl, Or.inr (Or.inr rfl)⟩
  | arr vs => exact ⟨'[', _, rfl, Or.inr (Or.inl rfl)⟩

theorem serElems_head (x : Value) (xs : List Value) :
    ∃ c t, serElems (x :: xs) = c :: t ∧ (c = '"' ∨ c = '[' ∨ c = '\x7b') := by
  obtain ⟨c, t, h, hc⟩ := serValue_head x
  cases xs with
  | nil => exact ⟨c, t, by simp [serElems, h], hc⟩
  | cons y ys =>
      exact ⟨c, t ++ ',' :: serElems (y :: ys), by simp [serElems, h], hc⟩

theorem value_head_not_ws (c : Char) (hc : c = '"' ∨ c = '[' ∨ c = '\x7b') :
    isWsChar c = false := by
  rcases hc with rfl | rfl | rfl <;> rfl

theorem value_head_ne_rbracket (c : Char) (hc : c = '"' ∨ c = '[' ∨ c = '\x7b') :
    c ≠ ']' := by
  rcases hc with rfl | rfl | rfl <;> decide

theorem value_head_ne_rbrace (c : Char) (hc : c = '"' ∨ c = '[' ∨ c = '\x7b') :
    c ≠ '\x7d' := by
  rcases hc with rfl | rfl | rfl <;> decide

mutual

theorem costValue_le : ∀ v : Value, costValue v ≤ (serValue v).length
  | .str s => by
      have h := escapeChars_length_ge s.data
      simp only [costValue, serValue, List.length_cons, List.length_append,
        List.length_singleton]
      omega
  | .obj ms => by
      have h := costMembers_le ms
      simp only [costValue, serValue, List.length_cons, List.length_append,
        List.length_singleton]
      omega
  | .arr vs => by
      have h := costElems_le vs
      simp only [costValue, serValue, List.length_cons, List.length_append,
        List.length_singleton]
      omega

theorem costElems_le : ∀ l : List Value, costElems l ≤ (serElems l).length + 1
  | [] => by simp [costElems, serElems]
  | [v] => by
      have h := costValue_le v
      simp only [costElems, serElems, List.length_cons]
      omega
  | v :: v2 :: vs => by
      have h1 := costValue_le v
      have h2 := costElems_le (v2 :: vs)
      rw [costElems, serElems]
      simp only [List.length_append, List.length_cons]
      omega

theorem costMembers_le : ∀ m : List (String × Value), costMembers m ≤ (serMembers m).length + 1
  | [] => by simp [costMembers, serMembers]
  | [(k, v)] => by
      have h := costValue_le v
      have hk := escapeChars_length_ge k.data
      simp only [costMembers, serMembers, List.length_cons, List.length_append]
      omega
  | (k, v) :: m2 :: ms => by
      have h1 := costValue_le v
      have hk := escapeChars_length_ge k.data
      have h2 := costMembers_le (m2 :: ms)
      rw [costMembers, serMembers]
      simp only [List.length_cons, List.length_append]
      omega

end

theorem serMembers_head (k : String) (v : Value) (ms : List (String × Value)) :
    ∃ t, serMembers ((k, v) :: ms) = '"' :: t := by
  cases ms with
  | nil => exact ⟨_, rfl⟩
  | cons m2 ms2 => exact ⟨_, rfl⟩

theorem parseF_quote_step (n : Nat) (Y : List Char) :
    parseF (n + 1) .val ('"' :: Y) =
      match parseStringBodyF (n + 1) Y with
      | some (s2, r) => some (Value.str ⟨s2⟩, r)
      | none => none := rfl

theorem parseF_lbracket_step (n : Nat) (rest : List Char) :
    parseF (n + 1) .val ('[' :: rest) =
      match skipWs rest with
      | [] => none
      | c :: r =>
          if c = ']' then some (.arr [], r)
          else
            match parseF n .elems (c :: r) with
            | some (.arr l, r2) => some (.arr l, r2)
            | _ => none := rfl

theorem parseF_lbrace_step (n : Nat) (rest : List Char) :
    parseF (n + 1) .val ('\x7b' :: rest) =
      match skipWs rest with
      | [] => none
      | c :: r =>
          if c = '\x7d' then some (.obj [], r)
          else
            match parseF n .members (c :: r) with
            | some (.obj m, r2) => some (.obj m, r2)
            | _ => none := rfl

theorem parseF_elems_step (n : Nat) (cs : List Char) :
    parseF (n + 1) .elems cs =
      match parseF n .val cs with
      | some (v, r) =>
          match skipWs r with
          | ',' :: r2 =>
              match parseF n .elems r2 with
              | some (.arr l, r3) => some (.arr (v :: l), r3)
              | _ => none
          | ']' :: r2 => some (.arr [v], r2)
          | _ => none
      | none => none := rfl

theorem parseF_members_step (n : Nat) (Y : List Char) :
    parseF (n + 1) .members ('"' :: Y) =
      match parseStringBodyF (n + 1) Y with
      | some (k, r1) =>
          match skipWs r1 with
          | ':' :: r2 =>
              match parseF n .val r2 with
              | some (v, r3) =>
                  match skipWs r3 with
                  | ',' :: r4 =>
                      match parseF n .members r4 with
                      | some (.obj m, r5) => some (.obj ((⟨k⟩, v) :: m), r5)
                      | _ => none
                  | '\x7d' :: r4 => some (.obj [(⟨k⟩, v)], r4)
                  | _ => none
              | none => none
          | _ => none
      | none => none := rfl

theorem parse_ser_aux (N : Nat) :
    (∀ v X, costValue v ≤ N → parseF N .val (serValue v ++ X) = some (v, X)) ∧
    (∀ l X, l ≠ [] → costElems l ≤ N →
      parseF N .elems (serElems l ++ ']' :: X) = some (.arr l, X)) ∧
    (∀ m X, m ≠ [] → costMembers m ≤ N →
      parseF N .members (serMembers m ++ '\x7d' :: X) = some (.obj m, X)) := by
  induction N with
  | zero =>
      refine ⟨?_, ?_, ?_⟩
      · intro v X hc
        exfalso
        cases v <;> simp [costValue] at hc
      · intro l X hne hc
        exfalso
        cases l with
        | nil => exact hne rfl
        | cons v vs => simp [costElems] at hc
      · intro m X hne hc
        exfalso
        cases m with
        | nil => exact hne rfl
        | cons kv ms =>
            obtain ⟨k, v⟩ := kv
            simp [costMembers] at hc
  | succ n ih =>
      obtain ⟨ihP, ihQ, ihR⟩ := ih
      refine ⟨?_, ?_, ?_⟩
      · intro v X hc
        cases v with
        | str s =>
            have hlen : s.data.length < n + 1 := by
              simp only [costValue] at hc
              omega
            have hshape : serValue (.str s) ++ X =
                '"' :: (escapeChars s.data ++ ('"' :: X)) := by
              simp [serValue]
            rw [hshape, parseF_quote_step,
              parseStringBodyF_escapeChars s.data (n + 1) X hlen]
        | arr vs =>
            cases vs with
            | nil =>
                have hshape : serValue (.arr []) ++ X = '[' :: ']' :: X := by
                  simp [serValue, serElems]
                rw [hshape]
                rfl
            | cons y ys =>
                have hcost : costElems (y :: ys) ≤ n := by
                  simp only [costValue] at hc
                  omega
                obtain ⟨c, t, hser, hcv⟩ := serElems_head y ys
                have hws := value_head_not_ws c hcv
                have hnrb := value_head_ne_rbracket c hcv
                have hshape : serValue (.arr (y :: ys)) ++ X =
                    '[' :: (serElems (y :: ys) ++ (']' :: X)) := by
                  simp [serValue, List.append_assoc]
                rw [hshape, parseF_lbracket_step, hser, List.cons_append,
                  skipWs_cons_of_not_ws c _ hws]
                show (if c = ']' then some (Value.arr [], t ++ ']' :: X)
                  else
                    match parseF n .elems (c :: (t ++ ']' :: X)) with
                    | some (.arr l, r2) => some (.arr l, r2)
                    | _ => none) = some (.arr (y :: ys), X)
                rw [if_neg hnrb,
                  show c :: (t ++ ']' :: X) = (c :: t) ++ ']' :: X from rfl, ← hser,
                  ihQ (y :: ys) X (List.cons_ne_nil y ys) hcost]
        | obj ms =>
            cases ms with
            | nil =>
                have hshape : serValue (.obj []) ++ X = '\x7b' :: '\x7d' :: X := by
                  simp [serValue, serMembers]
                rw [hshape]
                rfl
            | cons m1 ms1 =>
                obtain ⟨k1, v1⟩ := m1
                have hcost : costMembers ((k1, v1) :: ms1) ≤ n := by
                  simp only [costValue] at hc
                  omega
                obtain ⟨t, hser⟩ := serMembers_head k1 v1 ms1
                have hws : isWsChar '"' = false := rfl
                have hnrb : ('"' : Char) ≠ '\x7d' := by decide
                have hshape : serValue (.obj ((k1, v1) :: ms1)) ++ X =
                    '\x7b' :: (serMembers ((k1, v1) :: ms1) ++ ('\x7d' :: X)) := by
                  simp [serValue, List.append_assoc]
                rw [hshape, parseF_lbrace_step, hser, List.cons_append,
                  skipWs_cons_of_not_ws _ _ hws]
                show (if ('"' : Char) = '\x7d' then some (Value.obj [], t ++ '\x7d' :: X)
                  else
                    match parseF n .members ('"' :: (t ++ '\x7d' :: X)) with
                    | some (.obj m, r2) => some (.obj m, r2)
                    | _ => none) = some (.obj ((k1, v1) :: ms1), X)
                rw [if_neg hnrb,
                  show ('"' :: (t ++ '\x7d' :: X) : List Char) =
                    ('"' :: t) ++ '\x7d' :: X from rfl, ← hser,
                  ihR ((k1, v1) :: ms1) X (List.cons_ne_nil _ _) hcost]
      · intro l X hne hc
        cases l with
        | nil => exact absurd rfl hne
        | cons v vs =>
            cases vs with
            | nil =>
                have hcv : costValue v ≤ n := by
                  simp only [costElems] at hc
                  omega
                have hshape : serElems [v] ++ ']' :: X = serValue v ++ (']' :: X) := by
                  simp [serElems]
                rw [hshape, parseF_elems_step, ihP v (']' :: X) hcv]
                rfl
            | cons y ys =>
                have hcv : costValue v ≤ n := by
                  rw [costElems] at hc
                  omega
                have hcrest : costElems (y :: ys) ≤ n := by
                  rw [costElems] at hc
                  omega
                have hshape : serElems (v :: y :: ys) ++ ']' :: X =
                    serValue v ++ (',' :: (serElems (y :: ys) ++ (']' :: X))) := by
                  rw [serElems]
                  simp [List.append_assoc]
                rw [hshape, parseF_elems_step, ihP v _ hcv]
                show (match parseF n ParseKind.elems (serElems (y :: ys) ++ ']' :: X) with
                  | some (Value.arr l, r3) => some (Value.arr (v :: l), r3)
                  | _ => none) = some (Value.arr (v :: y :: ys), X)
                rw [ihQ (y :: ys) X (List.cons_ne_nil y ys) hcrest]
      · intro m X hne hc
        cases m with
        | nil => exact absurd rfl hne
        | cons kv ms =>
            obtain ⟨k, v⟩ := kv
            have hklen : k.data.length < n + 1 := by
              rw [costMembers] at hc
              omega
            have hcv : costValue v ≤ n := by
              rw [costMembers] at hc
              omega
            cases ms with
            | nil =>
                have hshape : serMembers [(k, v)] ++ '\x7d' :: X =
                    '"' :: (escapeChars k.data ++
                      ('"' :: (':' :: (serValue v ++ ('\x7d' :: X))))) := by
                  rw [serMembers]
                  simp [List.append_assoc]
                rw [hshape, parseF_members_step,
                  parseStringBodyF_escapeChars k.data (n + 1) _ hklen]
                show (match parseF n ParseKind.val (serValue v ++ '\x7d' :: X) with
                  | some (v2, r3) =>
                      match skipWs r3 with
                      | ',' :: r4 =>
                          match parseF n ParseKind.members r4 with
                          | some (Value.obj m2, r5) =>
                              some (Value.obj ((String.mk k.data, v2) :: m2), r5)
                          | _ => none
                      | '\x7d' :: r4 => some (Value.obj [(String.mk k.data, v2)], r4)
                      | _ => none
                  | none => none) = some (Value.obj [(k, v)], X)
                rw [ihP v _ hcv]
                rfl
            | cons m2 ms2 =>
                have hcrest : costMembers (m2 :: ms2) ≤ n := by
                  rw [costMembers] at hc
                  omega
                have hshape : serMembers ((k, v) :: m2 :: ms2) ++ '\x7d' :: X =
                    '"' :: (escapeChars k.data ++
                      ('"' :: (':' :: (serValue v ++
                        (',' :: (serMembers (m2 :: ms2) ++ ('\x7d' :: X))))))) := by
                  rw [serMembers]
                  simp [List.append_assoc]
                rw [hshape, parseF_members_step,
                  parseStringBodyF_escapeChars k.data (n + 1) _ hklen]
                show (match parseF n ParseKind.val (serValue v ++
                    ',' :: (serMembers (m2 :: ms2) ++ '\x7d' :: X)) with
                  | some (v2, r3) =>
                      match skipWs r3 with
                      | ',' :: r4 =>
                          match parseF n ParseKind.members r4 with
                          | some (Value.obj m3, r5) =>
                              some (Value.obj ((String.mk k.data, v2) :: m3), r5)
                          | _ => none
                      | '\x7d' :: r4 => some (Value.obj [(String.mk k.data, v2)], r4)
                      | _ => none
                  | none => none) = some (Value.obj ((k, v) :: m2 :: ms2), X)
                rw [ihP v _ hcv]
                show (match parseF n ParseKind.members
                    (serMembers (m2 :: ms2) ++ '\x7d' :: X) with
                  | some (Value.obj m3, r5) =>
                      some (Value.obj ((String.mk k.data, v) :: m3), r5)
                  | _ => none) = some (Value.obj ((k, v) :: m2 :: ms2), X)
                rw [ihR (m2 :: ms2) X (List.cons_ne_nil m2 ms2) hcrest]

theorem parseJson_serializeJson (v : Value) : parseJson (serializeJson v) = some v := by
  have hP := (parse_ser_aux ((serValue v).length + 1)).1 v []
    (le_trans (costValue_le v) (Nat.le_succ _))
  rw [List.append_nil] at hP
  show (match parseF ((serValue v).length + 1) ParseKind.val (serValue v) with
        | some (w, r) => if (skipWs r).isEmpty then some w else none
        | none => none) = some v
  rw [hP]
  rfl

/-- C9: serializing a list value (a sequence of items) to JSON text and
parsing the text back reproduces the identical item sequence, order
preserved. -/
theorem json_roundtrip (items : List Item) :
    parseJson (serializeJson (Value.arr (items.map Value.obj))) =
      some (Value.arr (items.map Value.obj)) :=
  parseJson_serializeJson _

/-- C8 counterexample: on the invalid JSON text `{` the fallback editor
does not invoke the change callback (that part of the claim holds), but no
inline validation message is surfaced either — the catch block of the
`onChange` handler is empty and the rendered output has no message
element, so the claimed inline validation message does not exist. -/
theorem jsonMode_no_message_counterexample :
    (jsonModeTextChange ⟨"x"⟩ "\x7b").2 = none ∧
    jsonModeValidationMessage "\x7b" = none :=
  ⟨rfl, rfl⟩

/-- C8 amended: in the raw JSON fallback editor the internal text always
tracks the keystroke; while the text fails to parse the change callback is
not invoked (so the host form retains the last valid value), and once the
text parses the callback is invoked with the parsed value; however no
inline validation message is surfaced — the parse error is silently
swallowed. -/
theorem jsonMode_fallback_behavior (st : JsonEditorState) (text : String) :
    (jsonModeTextChange st text).1.internalJson = text ∧
    (parseJson text = none → (jsonModeTextChange st text).2 = none) ∧
    (∀ v, parseJson text = some v → (jsonModeTextChange st text).2 = some v) ∧
    jsonModeValidationMessage text = none := by
  refine ⟨rfl, ?_, ?_, rfl⟩
  · intro h
    simpa [jsonModeTextChange] using h
  · intro v h
    simpa [jsonModeTextChange] using h

/-- Witness for C8 (amended): the valid JSON text `[]` invokes the change
callback with the parsed empty list. -/
theorem jsonMode_fallback_behavior_witness :
    ((jsonModeTextChange ⟨"x"⟩ "[]").1.internalJson = "[]" ∧
    (parseJson "[]" = none → (jsonModeTextChange ⟨"x"⟩ "[]").2 = none) ∧
    (∀ v, parseJson "[]" = some v → (jsonModeTextChange ⟨"x"⟩ "[]").2 = some v) ∧
    jsonModeValidationMessage "[]" = none) :=
  jsonMode_fallback_behavior ⟨"x"⟩ "[]"

/-! ### Concrete instantiations of the hypothesised claims -/

/-- Witness for C1: renaming the only field `a` of a one-item list to `b`. -/
theorem renameField_no_residual_key_witness :
    (0 < ([⟨"a", FieldType.text⟩] : List SchemaField).length) ∧
    (([⟨"a", FieldType.text⟩] : List SchemaField)[0].key ≠ "b") ∧
    ((handleRenameField [⟨"a", FieldType.text⟩] [[("a", Value.str "x")]] 0 "b").1 =
      ([⟨"a", FieldType.text⟩] : List SchemaField).set 0
        ⟨"b", ([⟨"a", FieldType.text⟩] : List SchemaField)[0].type⟩ ∧
    (handleRenameField [⟨"a", FieldType.text⟩] [[("a", Value.str "x")]] 0 "b").2 =
      ([[("a", Value.str "x")]] : List Item).map
        (renameKeyInItem ([⟨"a", FieldType.text⟩] : List SchemaField)[0].key "b") ∧
    (∀ item ∈ ([[("a", Value.str "x")]] : List Item),
      hasKey item ([⟨"a", FieldType.text⟩] : List SchemaField)[0].key = true →
      objGet (renameKeyInItem ([⟨"a", FieldType.text⟩] : List SchemaField)[0].key "b" item) "b" =
        objGet item ([⟨"a", FieldType.text⟩] : List SchemaField)[0].key) ∧
    (∀ item ∈ ([[("a", Value.str "x")]] : List Item),
      hasKey item ([⟨"a", FieldType.text⟩] : List SchemaField)[0].key = false →
      renameKeyInItem ([⟨"a", FieldType.text⟩] : List SchemaField)[0].key "b" item = item) ∧
    (∀ item ∈ (handleRenameField [⟨"a", FieldType.text⟩] [[("a", Value.str "x")]] 0 "b").2,
      hasKey item ([⟨"a", FieldType.text⟩] : List SchemaField)[0].key = false) ∧
    (∀ i v, ∀ item ∈ Memo.handleUpdateItem
        (handleRenameField [⟨"a", FieldType.text⟩] [[("a", Value.str "x")]] 0 "b").2 i "b" v,
      hasKey item ([⟨"a", FieldType.text⟩] : List SchemaField)[0].key = false)) :=
  ⟨by decide, by decide,
   renameField_no_residual_key [⟨"a", FieldType.text⟩] [[("a", Value.str "x")]] 0 "b"
     (by decide) (by decide)⟩

/-- Witness for C2: removing the `image` field from a one-item list. -/
theorem removeField_no_orphan_keys_witness :
    (1 < ([⟨"title", FieldType.text⟩, ⟨"image", FieldType.image⟩] : List SchemaField).length) ∧
    ((handleRemoveField [⟨"title", FieldType.text⟩, ⟨"image", FieldType.image⟩]
        [[("title", Value.str "Hello"), ("image", Value.obj [("url", Value.str "")])]] 1).1 =
      ([⟨"title", FieldType.text⟩, ⟨"image", FieldType.image⟩] : List SchemaField).eraseIdx 1 ∧
    (handleRemoveField [⟨"title", FieldType.text⟩, ⟨"image", FieldType.image⟩]
        [[("title", Value.str "Hello"), ("image", Value.obj [("url", Value.str "")])]] 1).2 =
      ([[("title", Value.str "Hello"), ("image", Value.obj [("url", Value.str "")])]] : List Item).map
        (fun item => objDelete item
          ([⟨"title", FieldType.text⟩, ⟨"image", FieldType.image⟩] : List SchemaField)[1].key) ∧
    ∀ item ∈ (handleRemoveField [⟨"title", FieldType.text⟩, ⟨"image", FieldType.image⟩]
        [[("title", Value.str "Hello"), ("image", Value.obj [("url", Value.str "")])]] 1).2,
      hasKey item
        ([⟨"title", FieldType.text⟩, ⟨"image", FieldType.image⟩] : List SchemaField)[1].key = false) :=
  ⟨by decide,
   removeField_no_orphan_keys [⟨"title", FieldType.text⟩, ⟨"image", FieldType.image⟩]
     [[("title", Value.str "Hello"), ("image", Value.obj [("url", Value.str "")])]] 1 (by decide)⟩

/-- Witness for C3: inferring the schema of a one-item list with a video
record and a short summary string. -/
theorem inferSchema_heuristic_witness :
    (([[("videoclip", Value.obj [("url", Value.str "v.mp4")]), ("summary", Value.str "s")]] : List Item) ≠ []) ∧
    ((inferSchema [[("videoclip", Value.obj [("url", Value.str "v.mp4")]), ("summary", Value.str "s")]]).map SchemaField.key =
      itemKeys (([[("videoclip", Value.obj [("url", Value.str "v.mp4")]), ("summary", Value.str "s")]] : List Item).head
        (List.cons_ne_nil _ _)) ∧
    inferSchema [[("videoclip", Value.obj [("url", Value.str "v.mp4")]), ("summary", Value.str "s")]] =
      (([[("videoclip", Value.obj [("url", Value.str "v.mp4")]), ("summary", Value.str "s")]] : List Item).head
        (List.cons_ne_nil _ _)).map (fun e => ⟨e.1, classifyValue e.1 e.2⟩) ∧
    (∀ k s, classifyValue k (.str s) =
      if s.length > 60 then .longText else .text) ∧
    (∀ k l, classifyValue k (.arr l) = .list) ∧
    (∀ k o, classifyValue k (.obj o) =
      if hasKey o "url" && strIncludes k.toLower "video" then .video
      else if hasKey o "url" then .image
      else if hasKey o "link" then .button
      else .text)) :=
  ⟨List.cons_ne_nil _ _,
   inferSchema_heuristic
     [[("videoclip", Value.obj [("url", Value.str "v.mp4")]), ("summary", Value.str "s")]]
     (List.cons_ne_nil _ _)⟩

/-- Witness for C4: appending an item for a two-field schema with distinct
keys. -/
theorem addItem_defaults_witness :
    ((([⟨"title", FieldType.text⟩, ⟨"hero_image", FieldType.image⟩] : List SchemaField).map SchemaField.key).Nodup) ∧
    (Basic.handleAddItem [⟨"title", FieldType.text⟩, ⟨"hero_image", FieldType.image⟩] [] =
      [] ++ [freshItem [⟨"title", FieldType.text⟩, ⟨"hero_image", FieldType.image⟩]] ∧
    Memo.handleAddItem [⟨"title", FieldType.text⟩, ⟨"hero_image", FieldType.image⟩] [] =
      [] ++ [freshItem [⟨"title", FieldType.text⟩, ⟨"hero_image", FieldType.image⟩]] ∧
    itemKeys (freshItem [⟨"title", FieldType.text⟩, ⟨"hero_image", FieldType.image⟩]) =
      ([⟨"title", FieldType.text⟩, ⟨"hero_image", FieldType.image⟩] : List SchemaField).map SchemaField.key ∧
    (∀ f ∈ ([⟨"title", FieldType.text⟩, ⟨"hero_image", FieldType.image⟩] : List SchemaField),
      objGet (freshItem [⟨"title", FieldType.text⟩, ⟨"hero_image", FieldType.image⟩]) f.key =
        some (defaultValue f.type)) ∧
    defaultValue .text = .str "" ∧
    defaultValue .longText = .str "" ∧
    defaultValue .image = .obj [("url", .str "")] ∧
    defaultValue .video = .obj [("url", .str "")] ∧
    defaultValue .button = .obj [("text", .str "Button"), ("link", .str "#")] ∧
    defaultValue .list = .arr []) :=
  ⟨by decide,
   addItem_defaults [⟨"title", FieldType.text⟩, ⟨"hero_image", FieldType.image⟩] [] (by decide)⟩

/-- Witness for C6 (amended): adding a field to the default two-field
schema, whose keys do not collide with the placeholder `field_3`. -/
theorem addField_placeholder_witness :
    ((([⟨"title", FieldType.text⟩, ⟨"description", FieldType.longText⟩] : List SchemaField).map SchemaField.key).Nodup) ∧
    (("field_" ++ toString (([⟨"title", FieldType.text⟩, ⟨"description", FieldType.longText⟩] : List SchemaField).length + 1)) ∉
      ([⟨"title", FieldType.text⟩, ⟨"description", FieldType.longText⟩] : List SchemaField).map SchemaField.key) ∧
    (addField [⟨"title", FieldType.text⟩, ⟨"description", FieldType.longText⟩] =
      [⟨"title", FieldType.text⟩, ⟨"description", FieldType.longText⟩] ++
        [⟨"field_" ++ toString (([⟨"title", FieldType.text⟩, ⟨"description", FieldType.longText⟩] : List SchemaField).length + 1), .text⟩] ∧
    ((addField [⟨"title", FieldType.text⟩, ⟨"description", FieldType.longText⟩]).map SchemaField.key).Nodup) :=
  ⟨by decide, by decide,
   addField_placeholder [⟨"title", FieldType.text⟩, ⟨"description", FieldType.longText⟩]
     (by decide) (by decide)⟩

/-- Witness for C7: updating the `title` field of the second of two
items. -/
theorem updateItem_frame_witness :
    (1 < ([[("title", Value.str "a")], [("title", Value.str "b")]] : List Item).length) ∧
    (Memo.handleUpdateItem [[("title", Value.str "a")], [("title", Value.str "b")]] 1 "title" (Value.str "z") =
      Basic.handleUpdateItem [[("title", Value.str "a")], [("title", Value.str "b")]] 1 "title" (Value.str "z") ∧
    (Basic.handleUpdateItem [[("title", Value.str "a")], [("title", Value.str "b")]] 1 "title" (Value.str "z")).length =
      ([[("title", Value.str "a")], [("title", Value.str "b")]] : List Item).length ∧
    objGet ((Basic.handleUpdateItem [[("title", Value.str "a")], [("title", Value.str "b")]] 1 "title" (Value.str "z")).getD 1 [])
      "title" = some (Value.str "z") ∧
    (∀ k2, k2 ≠ "title" →
      objGet ((Basic.handleUpdateItem [[("title", Value.str "a")], [("title", Value.str "b")]] 1 "title" (Value.str "z")).getD 1 []) k2 =
        objGet (([[("title", Value.str "a")], [("title", Value.str "b")]] : List Item).getD 1 []) k2) ∧
    (∀ j, j ≠ 1 →
      (Basic.handleUpdateItem [[("title", Value.str "a")], [("title", Value.str "b")]] 1 "title" (Value.str "z")).getD j [] =
        ([[("title", Value.str "a")], [("title", Value.str "b")]] : List Item).getD j [])) :=
  ⟨by decide,
   updateItem_frame [[("title", Value.str "a")], [("title", Value.str "b")]] 1 "title"
     (Value.str "z") (by decide)⟩

end BotlabCms
